import Mathlib

/-!
Verification of the DSP tutorial suite's spectral core against its
specification.  The C sources `src/advanced_fft.c`, `src/streaming.c` and
`src/dsp_utils.c` are embedded shallowly: every numeric routine becomes a
Lean function over exact real/complex arithmetic (the specification's
floating-point tolerances are read as exact equalities over ℝ/ℂ), and the
allocation/release behaviour of the stateful objects is embedded separately
at the pointer level with an explicit allocation oracle.

The radix-2 transform itself (`fft.c`/`fft.h`) is not among the provided
sources — only its header documentation, callers and tests are — so the
forward and inverse transform are modelled from the specification's
Transform contract (§4.1): forward DFT with kernel `e^{-j2πki/N}` and no
normalisation, inverse with kernel `e^{+j2πki/N}` and division by `N`.
-/

open Complex Finset

noncomputable section

namespace DspSuite

/-- Twiddle factor `e^{j·2π·d/N}` for an integer exponent `d`. -/
def twiddle (N : ℕ) (d : ℤ) : ℂ :=
  Complex.exp (2 * Real.pi * Complex.I * d / N)

/-- Modelled from the spec: `fft.c` is not among the provided sources, so the
forward Transform is taken from §4.1 of the specification — the unnormalised
DFT `X[k] = Σ_{i<N} x[i]·e^{-j2πki/N}`. -/
def dft (N : ℕ) (x : ℕ → ℂ) (k : ℕ) : ℂ :=
  ∑ i ∈ range N, x i * twiddle N (-((k : ℤ) * i))

/-- Modelled from the spec: `fft.c` is not among the provided sources, so the
inverse Transform is taken from §4.1 of the specification — kernel
`e^{+j2πki/N}` and every output divided by `N`. -/
def idft (N : ℕ) (X : ℕ → ℂ) (i : ℕ) : ℂ :=
  (∑ k ∈ range N, X k * twiddle N ((k : ℤ) * i)) / N

theorem twiddle_add (N : ℕ) (a b : ℤ) :
    twiddle N (a + b) = twiddle N a * twiddle N b := by
  unfold twiddle
  rw [← Complex.exp_add]
  congr 1
  push_cast
  ring

theorem twiddle_zero (N : ℕ) : twiddle N 0 = 1 := by
  simp [twiddle]

theorem twiddle_int_mul (N : ℕ) (m d : ℤ) :
    twiddle N (m * d) = twiddle N d ^ m := by
  unfold twiddle
  rw [← Complex.exp_int_mul]
  congr 1
  push_cast
  ring

theorem twiddle_nat_mul (N : ℕ) (m : ℕ) (d : ℤ) :
    twiddle N ((m : ℤ) * d) = twiddle N d ^ m := by
  rw [twiddle_int_mul]
  norm_cast

/-- If `N` divides `d` then the twiddle factor is `1`
(`e^{j2πm} = 1` for integer `m`). -/
theorem twiddle_eq_one_of_dvd {N : ℕ} (hN : 0 < N) {d : ℤ} (h : (N : ℤ) ∣ d) :
    twiddle N d = 1 := by
  obtain ⟨m, rfl⟩ := h
  unfold twiddle
  have hN' : (N : ℂ) ≠ 0 := by exact_mod_cast hN.ne'
  have : 2 * (Real.pi : ℂ) * Complex.I * ((N : ℤ) * m : ℤ) / N
      = (m : ℂ) * (2 * Real.pi * Complex.I) := by
    push_cast
    field_simp
    ring
  rw [this]
  exact_mod_cast Complex.exp_int_mul_two_pi_mul_I m

/-- If `N > 0` does not divide `d` then the twiddle factor differs from `1`. -/
theorem twiddle_ne_one_of_not_dvd {N : ℕ} (hN : 0 < N) {d : ℤ}
    (h : ¬ (N : ℤ) ∣ d) : twiddle N d ≠ 1 := by
  intro hone
  apply h
  unfold twiddle at hone
  rw [Complex.exp_eq_one_iff] at hone
  obtain ⟨m, hm⟩ := hone
  have hN' : (N : ℂ) ≠ 0 := by exact_mod_cast hN.ne'
  have hpi : (Real.pi : ℂ) ≠ 0 := by exact_mod_cast Real.pi_ne_zero
  have hd : (d : ℂ) = (m : ℂ) * N := by
    field_simp at hm
    have h2 : (2 : ℂ) * Real.pi * Complex.I ≠ 0 := by
      simp [Complex.I_ne_zero, hpi]
    -- rearrange `2·π·I·d = m·(2·π·I)·N` to `d = m·N`
    apply mul_left_cancel₀ h2
    linear_combination hm
  have : d = m * N := by exact_mod_cast hd
  exact ⟨m, by rw [this]; ring⟩

/-- Orthogonality of the DFT kernel: `Σ_{k<N} e^{j2πkd/N}` is `N` when
`N ∣ d` and `0` otherwise. -/
theorem sum_twiddle (N : ℕ) (hN : 0 < N) (d : ℤ) :
    ∑ k ∈ range N, twiddle N ((k : ℤ) * d)
      = if (N : ℤ) ∣ d then (N : ℂ) else 0 := by
  by_cases hdvd : (N : ℤ) ∣ d
  · simp only [hdvd, if_true]
    have : ∀ k ∈ range N, twiddle N ((k : ℤ) * d) = 1 := by
      intro k _
      exact twiddle_eq_one_of_dvd hN (Dvd.dvd.mul_left hdvd _)
    rw [Finset.sum_congr rfl this]
    simp
  · simp only [hdvd, if_false]
    have hz : ∀ k ∈ range N, twiddle N ((k : ℤ) * d) = twiddle N d ^ k := by
      intro k _
      exact twiddle_nat_mul N k d
    rw [Finset.sum_congr rfl hz, geom_sum_eq (twiddle_ne_one_of_not_dvd hN hdvd)]
    have hpow : twiddle N d ^ N = 1 := by
      rw [← twiddle_nat_mul]
      exact twiddle_eq_one_of_dvd hN ⟨d, rfl⟩
    rw [hpow]
    simp

/-- DFT inversion: for any length `N ≥ 1` and any buffer `x`, applying the
inverse transform to the forward transform recovers every in-range sample. -/
theorem idft_dft (N : ℕ) (hN : 0 < N) (x : ℕ → ℂ) {i : ℕ} (hi : i < N) :
    idft N (dft N x) i = x i := by
  unfold idft dft
  have hN' : (N : ℂ) ≠ 0 := by exact_mod_cast hN.ne'
  have expand :
      ∑ k ∈ range N, (∑ j ∈ range N, x j * twiddle N (-((k : ℤ) * j)))
          * twiddle N ((k : ℤ) * i)
        = ∑ j ∈ range N, x j *
            ∑ k ∈ range N, twiddle N ((k : ℤ) * ((i : ℤ) - j)) := by
    calc
      ∑ k ∈ range N, (∑ j ∈ range N, x j * twiddle N (-((k : ℤ) * j)))
          * twiddle N ((k : ℤ) * i)
        = ∑ k ∈ range N, ∑ j ∈ range N,
            x j * twiddle N (-((k : ℤ) * j)) * twiddle N ((k : ℤ) * i) := by
          apply Finset.sum_congr rfl
          intro k _
          rw [Finset.sum_mul]
      _ = ∑ j ∈ range N, ∑ k ∈ range N,
            x j * twiddle N (-((k : ℤ) * j)) * twiddle N ((k : ℤ) * i) :=
          Finset.sum_comm
      _ = ∑ j ∈ range N, x j *
            ∑ k ∈ range N, twiddle N ((k : ℤ) * ((i : ℤ) - j)) := by
          apply Finset.sum_congr rfl
          intro j _
          rw [Finset.mul_sum]
          apply Finset.sum_congr rfl
          intro k _
          have : (k : ℤ) * ((i : ℤ) - j) = -((k : ℤ) * j) + (k : ℤ) * i := by
            ring
          rw [this, twiddle_add]
          ring
  rw [expand]
  have collapse : ∀ j ∈ range N,
      x j * ∑ k ∈ range N, twiddle N ((k : ℤ) * ((i : ℤ) - j))
        = if j = i then x i * N else 0 := by
    intro j hj
    rw [Finset.mem_range] at hj
    rw [sum_twiddle N hN]
    by_cases hji : j = i
    · subst hji
      simp
    · have : ¬ (N : ℤ) ∣ ((i : ℤ) - j) := by
        intro hdvd
        have := Int.eq_zero_of_dvd_of_natAbs_lt_natAbs hdvd (by omega)
        omega
      simp [this, hji]
  rw [Finset.sum_congr rfl collapse, Finset.sum_ite_eq' (range N) i (fun _ => x i * (N : ℂ))]
  rw [if_pos (Finset.mem_range.mpr hi)]
  field_simp

/-- Pointwise product of two forward transforms, inverted: when both factors
have small enough support (`u` vanishes from `A` on, `v` from `B` on) and the
circular wrap cannot reach index `t` (`A + B ≤ t + N + 1`), the `N`-point
circular convolution computed by the transform pair agrees with plain linear
convolution at `t`. -/
theorem idft_dft_mul_dft {N A B : ℕ} (hN : 0 < N) (u v : ℕ → ℂ)
    (hu : ∀ j, A ≤ j → u j = 0) (hv : ∀ l, B ≤ l → v l = 0)
    {t : ℕ} (ht : t < N)
    (hwrap : A + B ≤ t + N + 1) :
    idft N (fun k => dft N u k * dft N v k) t
      = ∑ j ∈ range (t + 1), u j * v (t - j) := by
  unfold idft dft
  have hN' : (N : ℂ) ≠ 0 := by exact_mod_cast hN.ne'
  have expand :
      ∑ k ∈ range N,
          (∑ j ∈ range N, u j * twiddle N (-((k : ℤ) * j))) *
            (∑ l ∈ range N, v l * twiddle N (-((k : ℤ) * l))) *
          twiddle N ((k : ℤ) * t)
        = ∑ j ∈ range N, ∑ l ∈ range N, u j * v l *
            ∑ k ∈ range N, twiddle N ((k : ℤ) * ((t : ℤ) - j - l)) := by
    calc
      ∑ k ∈ range N,
          (∑ j ∈ range N, u j * twiddle N (-((k : ℤ) * j))) *
            (∑ l ∈ range N, v l * twiddle N (-((k : ℤ) * l))) *
          twiddle N ((k : ℤ) * t)
        = ∑ k ∈ range N, ∑ j ∈ range N, ∑ l ∈ range N,
            u j * v l * twiddle N ((k : ℤ) * ((t : ℤ) - j - l)) := by
          apply Finset.sum_congr rfl
          intro k _
          rw [Finset.sum_mul_sum, Finset.sum_mul]
          apply Finset.sum_congr rfl
          intro j _
          rw [Finset.sum_mul]
          apply Finset.sum_congr rfl
          intro l _
          have harg : (k : ℤ) * ((t : ℤ) - j - l)
              = -((k : ℤ) * j) + (-((k : ℤ) * l) + (k : ℤ) * t) := by ring
          rw [harg, twiddle_add, twiddle_add]
          ring
      _ = ∑ j ∈ range N, ∑ k ∈ range N, ∑ l ∈ range N,
            u j * v l * twiddle N ((k : ℤ) * ((t : ℤ) - j - l)) :=
          Finset.sum_comm
      _ = ∑ j ∈ range N, ∑ l ∈ range N, u j * v l *
            ∑ k ∈ range N, twiddle N ((k : ℤ) * ((t : ℤ) - j - l)) := by
          apply Finset.sum_congr rfl
          intro j _
          rw [Finset.sum_comm]
          apply Finset.sum_congr rfl
          intro l _
          rw [Finset.mul_sum]
  rw [expand]
  have inner : ∀ j ∈ range N,
      ∑ l ∈ range N, u j * v l *
          ∑ k ∈ range N, twiddle N ((k : ℤ) * ((t : ℤ) - j - l))
        = (if j ≤ t then u j * v (t - j) else 0) * N := by
    intro j hj
    rw [Finset.mem_range] at hj
    by_cases huj : u j = 0
    · simp [huj]
    have hjA : j < A := by
      by_contra h
      exact huj (hu j (le_of_not_lt h))
    have pick : ∀ l ∈ range N,
        u j * v l * ∑ k ∈ range N, twiddle N ((k : ℤ) * ((t : ℤ) - j - l))
          = if l = t - j ∧ j ≤ t then u j * v l * N else 0 := by
      intro l hl
      rw [Finset.mem_range] at hl
      rw [sum_twiddle N hN]
      by_cases hvl : v l = 0
      · simp [hvl]
      have hlB : l < B := by
        by_contra h
        exact hvl (hv l (le_of_not_lt h))
      by_cases hdvd : (N : ℤ) ∣ ((t : ℤ) - j - l)
      · have hz := Int.eq_zero_of_dvd_of_natAbs_lt_natAbs hdvd (by omega)
        have hcond : l = t - j ∧ j ≤ t := by omega
        simp [hdvd, hcond]
      · have hcond : ¬ (l = t - j ∧ j ≤ t) := by
          intro hc
          exact hdvd (by have : (t : ℤ) - j - l = 0 := by omega
                         rw [this]
                         exact dvd_zero _)
        simp [hdvd, hcond]
    rw [Finset.sum_congr rfl pick]
    by_cases hjt : j ≤ t
    · have : ∀ l ∈ range N, (if l = t - j ∧ j ≤ t then u j * v l * (N : ℂ) else 0)
          = if l = t - j then u j * v (t - j) * N else 0 := by
        intro l _
        by_cases hl : l = t - j
        · simp [hl, hjt]
        · simp [hl]
      rw [Finset.sum_congr rfl this,
        Finset.sum_ite_eq' (range N) (t - j) (fun _ => u j * v (t - j) * (N : ℂ))]
      rw [if_pos (Finset.mem_range.mpr (by omega)), if_pos hjt]
    · have : ∀ l ∈ range N, (if l = t - j ∧ j ≤ t then u j * v l * (N : ℂ) else 0)
          = 0 := by
        intro l _
        simp [hjt]
      rw [Finset.sum_congr rfl this]
      simp [hjt]
  rw [Finset.sum_congr rfl inner, ← Finset.sum_mul, mul_div_assoc,
    div_self hN', mul_one]
  rw [← Finset.sum_filter]
  congr 1
  ext j
  simp [Nat.lt_succ_iff]
  omega

/-- Loop of `next_power_of_2` from `dsp_utils.c`:
`p = 1; while (p < n) p <<= 1; return p;`.  The `0 < p` guard records that
the loop variable starts at `1` and only ever doubles. -/
def npt_go (n p : ℕ) : ℕ :=
  if 0 < p ∧ p < n then npt_go n (2 * p) else p
termination_by n - p
decreasing_by omega

/-- `next_power_of_2` from `dsp_utils.c`: round up to the next power of two. -/
def next_power_of_2 (n : ℕ) : ℕ :=
  npt_go n 1

theorem npt_go_spec (n : ℕ) :
    ∀ fuel p, n - p ≤ fuel → 0 < p → 0 < npt_go n p ∧ n ≤ npt_go n p := by
  intro fuel
  induction fuel with
  | zero =>
    intro p hle hp
    rw [npt_go]
    have hcond : ¬ (0 < p ∧ p < n) := by omega
    simp only [hcond, if_false]
    omega
  | succ f ih =>
    intro p hle hp
    rw [npt_go]
    by_cases hcond : 0 < p ∧ p < n
    · simp only [hcond, if_true]
      exact ih (2 * p) (by omega) (by omega)
    · simp only [hcond, if_false]
      omega

theorem next_power_of_2_pos (n : ℕ) : 0 < next_power_of_2 n :=
  (npt_go_spec n (n - 1) 1 (by omega) (by omega)).1

theorem le_next_power_of_2 (n : ℕ) : n ≤ next_power_of_2 n :=
  (npt_go_spec n (n - 1) 1 (by omega) (by omega)).2

/-- Direct time-domain convolution of the signal `x` with the `M`-tap FIR
filter `h` at output index `t`; samples before the start of the signal count
as zero.  This is the specification's reference output. -/
def direct_conv (h : ℕ → ℝ) (M : ℕ) (x : ℕ → ℝ) (t : ℕ) : ℝ :=
  ∑ j ∈ range M, h j * (if j ≤ t then x (t - j) else 0)

/-- Linear convolution of a single zero-padded `L`-sample block with the
`M`-tap filter `h` at index `t`. -/
def block_conv (h : ℕ → ℝ) (M L : ℕ) (xb : ℕ → ℝ) (t : ℕ) : ℝ :=
  ∑ j ∈ range M, h j * (if j ≤ t ∧ t - j < L then xb (t - j) else 0)

theorem conv_sum_comm (f g : ℕ → ℂ) (t : ℕ) :
    ∑ j ∈ range (t + 1), f j * g (t - j)
      = ∑ j ∈ range (t + 1), g j * f (t - j) := by
  have hrefl := Finset.sum_range_reflect (fun j => g j * f (t - j)) (t + 1)
  rw [← hrefl]
  apply Finset.sum_congr rfl
  intro j hj
  rw [Finset.mem_range] at hj
  have h1 : t + 1 - 1 - j = t - j := by omega
  have h2 : t - (t - j) = j := by omega
  rw [h1, h2, mul_comm]

/-- Rewriting a truncated convolution sum over `range (t+1)` as a sum over
the filter's tap range. -/
theorem sum_filter_shape (h : ℕ → ℝ) (M t : ℕ) (a : ℕ → ℝ) :
    ∑ j ∈ range (t + 1), (if j < M then h j else 0) * a j
      = ∑ j ∈ range M, h j * (if j ≤ t then a j else 0) := by
  have left :
      ∑ j ∈ range (t + 1), (if j < M then h j else 0) * a j
        = ∑ j ∈ range (t + 1 + M),
            (if j < M then h j else 0) * (if j ≤ t then a j else 0) :=
    calc
      ∑ j ∈ range (t + 1), (if j < M then h j else 0) * a j
        = ∑ j ∈ range (t + 1),
            (if j < M then h j else 0) * (if j ≤ t then a j else 0) := by
          apply Finset.sum_congr rfl
          intro j hj
          rw [Finset.mem_range] at hj
          rw [if_pos (by omega : j ≤ t)]
      _ = ∑ j ∈ range (t + 1 + M),
            (if j < M then h j else 0) * (if j ≤ t then a j else 0) := by
          apply Finset.sum_subset (Finset.range_subset.mpr (by omega :
            t + 1 ≤ t + 1 + M))
          intro j _ hj
          rw [Finset.mem_range, not_lt] at hj
          rw [if_neg (by omega : ¬ j ≤ t), mul_zero]
  have right :
      ∑ j ∈ range M, h j * (if j ≤ t then a j else 0)
        = ∑ j ∈ range (t + 1 + M),
            (if j < M then h j else 0) * (if j ≤ t then a j else 0) :=
    calc
      ∑ j ∈ range M, h j * (if j ≤ t then a j else 0)
        = ∑ j ∈ range M,
            (if j < M then h j else 0) * (if j ≤ t then a j else 0) := by
          apply Finset.sum_congr rfl
          intro j hj
          rw [Finset.mem_range] at hj
          rw [if_pos hj]
      _ = ∑ j ∈ range (t + 1 + M),
            (if j < M then h j else 0) * (if j ≤ t then a j else 0) := by
          apply Finset.sum_subset (Finset.range_subset.mpr (by omega :
            M ≤ t + 1 + M))
          intro j _ hj
          rw [Finset.mem_range, not_lt] at hj
          rw [if_neg (by omega : ¬ j < M), zero_mul]
  rw [left, right]

/-! ## Overlap-add streaming convolution (`streaming.c`) -/

/-- Numeric state of the overlap-add engine (`OlaState` in `streaming.h`).
The C buffers `H` and `Xbuf` hold `fft_size` complex entries, `padded` holds
`fft_size` reals and `tail` holds `fft_size − block_size` reals; each is
modelled as a total function that is zero (the `calloc` fill) wherever the
code never writes. -/
structure OlaState where
  block_size : ℕ
  fft_size : ℕ
  filter_len : ℕ
  H : ℕ → ℂ
  Xbuf : ℕ → ℂ
  tail : ℕ → ℝ
  padded : ℕ → ℝ

/-- `ola_init` from `streaming.c` (numeric content; allocation outcomes are
modelled separately below): `fft_size` is the next power of two at or above
`block_size + filter_len − 1`, `H` is the forward transform of the
zero-padded filter, and every scratch buffer starts zero-filled. -/
def ola_init (h : ℕ → ℝ) (filter_len block_size : ℕ) : OlaState :=
  let N := next_power_of_2 (block_size + filter_len - 1)
  { block_size := block_size
    fft_size := N
    filter_len := filter_len
    H := dft N (fun i => if i < filter_len then (h i : ℂ) else 0)
    Xbuf := fun _ => 0
    tail := fun _ => 0
    padded := fun _ => 0 }

/-- `ola_process` from `streaming.c`: zero-pad the incoming block, transform,
multiply by the cached `H`, inverse-transform, add the saved tail to the
first `block_size` outputs and save samples `block_size..fft_size-1` as the
new tail.  The C loop `out[i] = Xbuf[i].re + tail[i]` runs `i` up to
`block_size`, while the tail buffer has only `fft_size − block_size` cells;
reads past that length are modelled as the zero such a cell would carry,
matching a `calloc`-fresh heap.  The returned function is the output block;
the code only defines its first `block_size` samples. -/
def ola_process (s : OlaState) (inp : ℕ → ℝ) : OlaState × (ℕ → ℝ) :=
  let N := s.fft_size
  let L := s.block_size
  let padded : ℕ → ℝ := fun i => if i < L then inp i else 0
  let y : ℕ → ℂ := idft N (fun k => dft N (fun i => ((padded i : ℝ) : ℂ)) k * s.H k)
  let out : ℕ → ℝ := fun i => (y i).re + s.tail i
  let tail : ℕ → ℝ := fun i => if i < N - L then (y (L + i)).re else s.tail i
  ({ s with Xbuf := y, padded := padded, tail := tail }, out)

/-- Block `b` of the signal `x` when cut into consecutive `L`-sample blocks. -/
def signal_block (x : ℕ → ℝ) (L b : ℕ) : ℕ → ℝ :=
  fun i => x (b * L + i)

/-- The overlap-add state after the first `b` blocks of `x` have been fed. -/
def ola_run (s0 : OlaState) (x : ℕ → ℝ) (L : ℕ) : ℕ → OlaState
  | 0 => s0
  | b + 1 => (ola_process (ola_run s0 x L b) (signal_block x L b)).1

/-- The output block produced by the `b`-th `ola_process` call (0-indexed). -/
def ola_out (s0 : OlaState) (x : ℕ → ℝ) (L b : ℕ) : ℕ → ℝ :=
  (ola_process (ola_run s0 x L b) (signal_block x L b)).2

theorem ola_process_config (s : OlaState) (inp : ℕ → ℝ) :
    ((ola_process s inp).1.block_size = s.block_size ∧
      (ola_process s inp).1.fft_size = s.fft_size ∧
      (ola_process s inp).1.filter_len = s.filter_len) ∧
      (ola_process s inp).1.H = s.H := by
  refine ⟨⟨rfl, rfl, rfl⟩, rfl⟩

theorem ola_run_config (s0 : OlaState) (x : ℕ → ℝ) (L b : ℕ) :
    (ola_run s0 x L b).block_size = s0.block_size ∧
      (ola_run s0 x L b).fft_size = s0.fft_size ∧
      (ola_run s0 x L b).filter_len = s0.filter_len ∧
      (ola_run s0 x L b).H = s0.H := by
  induction b with
  | zero => exact ⟨rfl, rfl, rfl, rfl⟩
  | succ b ih =>
    obtain ⟨h1, h2, h3, h4⟩ := ih
    exact ⟨h1, h2, h3, by rw [ola_run]; exact h4⟩

/-- The inverse transform of `X·H` computed inside a processing call equals
the linear convolution of the zero-padded block with the zero-padded filter,
as a real number, at every index `t < N` that the circular wrap cannot
reach. -/
theorem conv_block_spec (h : ℕ → ℝ) (M L N : ℕ) (hN : 0 < N)
    (xb : ℕ → ℝ) {t : ℕ} (ht : t < N) (hwrap : L + M ≤ t + N + 1) :
    idft N (fun k =>
        dft N (fun i => (((if i < L then xb i else 0 : ℝ)) : ℂ)) k *
          dft N (fun i => if i < M then (h i : ℂ) else 0) k) t
      = ((block_conv h M L xb t : ℝ) : ℂ) := by
  rw [idft_dft_mul_dft hN _ _
    (fun j hj => by simp [Nat.not_lt.mpr hj])
    (fun l hl => by simp [Nat.not_lt.mpr hl]) ht hwrap]
  calc
    ∑ j ∈ range (t + 1),
        (((if j < L then xb j else 0 : ℝ)) : ℂ) *
          (if t - j < M then (h (t - j) : ℂ) else 0)
      = ∑ j ∈ range (t + 1),
          (if j < M then (h j : ℂ) else 0) *
            (((if t - j < L then xb (t - j) else 0 : ℝ)) : ℂ) :=
        conv_sum_comm (fun j => (((if j < L then xb j else 0 : ℝ)) : ℂ))
          (fun l => if l < M then (h l : ℂ) else 0) t
    _ = ((∑ j ∈ range (t + 1),
          (if j < M then h j else 0) *
            (if t - j < L then xb (t - j) else 0) : ℝ) : ℂ) := by
        push_cast [apply_ite (fun r : ℝ => (r : ℂ))]
        rfl
    _ = ((∑ j ∈ range M, h j *
          (if j ≤ t then (if t - j < L then xb (t - j) else 0) else 0) : ℝ) : ℂ) :=
        congrArg (fun r : ℝ => (r : ℂ))
          (sum_filter_shape h M t (fun j => if t - j < L then xb (t - j) else 0))
    _ = ((block_conv h M L xb t : ℝ) : ℂ) := by
        unfold block_conv
        norm_cast
        apply Finset.sum_congr rfl
        intro j _
        by_cases h1 : j ≤ t
        · simp [h1]
        · simp [h1]

theorem ola_init_fields (h : ℕ → ℝ) (filter_len block_size : ℕ) :
    (ola_init h filter_len block_size).block_size = block_size ∧
      (ola_init h filter_len block_size).fft_size
        = next_power_of_2 (block_size + filter_len - 1) ∧
      (ola_init h filter_len block_size).H
        = dft (next_power_of_2 (block_size + filter_len - 1))
            (fun i => if i < filter_len then (h i : ℂ) else 0) :=
  ⟨rfl, rfl, rfl⟩

theorem ola_process_tail (s : OlaState) (inp : ℕ → ℝ) (i : ℕ) :
    (ola_process s inp).1.tail i
      = if i < s.fft_size - s.block_size then
          (idft s.fft_size (fun k =>
            dft s.fft_size
              (fun j => (((if j < s.block_size then inp j else 0 : ℝ)) : ℂ)) k *
              s.H k) (s.block_size + i)).re
        else s.tail i := rfl

theorem ola_process_output (s : OlaState) (inp : ℕ → ℝ) (i : ℕ) :
    (ola_process s inp).2 i
      = (idft s.fft_size (fun k =>
          dft s.fft_size
            (fun j => (((if j < s.block_size then inp j else 0 : ℝ)) : ℂ)) k *
            s.H k) i).re + s.tail i := rfl

/-- Tail invariant of the overlap-add loop: after `b` calls, cell `i` of the
tail buffer holds the carry `y_{b-1}[L+i]` of the previous block's linear
convolution (and `0` before the first call or beyond the buffer). -/
theorem ola_tail_inv (h x : ℕ → ℝ) (M L : ℕ) (hM : 1 ≤ M) (b : ℕ) :
    ∀ i, (ola_run (ola_init h M L) x L b).tail i
      = if b ≠ 0 ∧ i < next_power_of_2 (L + M - 1) - L then
          block_conv h M L (signal_block x L (b - 1)) (L + i)
        else 0 := by
  induction b with
  | zero =>
    intro i
    simp [ola_run, ola_init]
  | succ b ih =>
    intro i
    obtain ⟨hbs, hfs, _, hH⟩ := ola_run_config (ola_init h M L) x L b
    have hrun : ola_run (ola_init h M L) x L (b + 1)
        = (ola_process (ola_run (ola_init h M L) x L b) (signal_block x L b)).1 :=
      rfl
    obtain ⟨hibs, hifs, hiH⟩ := ola_init_fields h M L
    rw [hrun, ola_process_tail, hbs, hfs, hH, hibs, hifs, hiH]
    have hN0 : L + M - 1 ≤ next_power_of_2 (L + M - 1) := le_next_power_of_2 _
    have hN0pos : 0 < next_power_of_2 (L + M - 1) := next_power_of_2_pos _
    by_cases hi : i < next_power_of_2 (L + M - 1) - L
    · rw [if_pos hi,
        conv_block_spec h M L (next_power_of_2 (L + M - 1)) hN0pos
          (signal_block x L b) (by omega) (by omega),
        Complex.ofReal_re, if_pos ⟨Nat.succ_ne_zero b, hi⟩, Nat.succ_sub_one]
    · rw [if_neg hi, ih i, if_neg (by tauto), if_neg (by tauto)]

/-- What the `b`-th overlap-add call outputs at position `i < L`: the current
block's linear convolution plus the saved carry of the previous block. -/
theorem ola_out_spec (h x : ℕ → ℝ) (M L : ℕ) (hM : 1 ≤ M) (b : ℕ)
    {i : ℕ} (hi : i < L) :
    ola_out (ola_init h M L) x L b i
      = block_conv h M L (signal_block x L b) i
        + (if b ≠ 0 ∧ i < next_power_of_2 (L + M - 1) - L then
            block_conv h M L (signal_block x L (b - 1)) (L + i) else 0) := by
  obtain ⟨hbs, hfs, _, hH⟩ := ola_run_config (ola_init h M L) x L b
  have hN0 : L + M - 1 ≤ next_power_of_2 (L + M - 1) := le_next_power_of_2 _
  have hN0pos : 0 < next_power_of_2 (L + M - 1) := next_power_of_2_pos _
  obtain ⟨hibs, hifs, hiH⟩ := ola_init_fields h M L
  unfold ola_out
  rw [ola_process_output, hbs, hfs, hH, hibs, hifs, hiH,
    conv_block_spec h M L (next_power_of_2 (L + M - 1)) hN0pos
      (signal_block x L b) (by omega) (by omega),
    Complex.ofReal_re, ola_tail_inv h x M L hM b i]

/-- Splitting direct convolution at block boundaries: when the block size
satisfies `M − 1 ≤ L`, output sample `b·L + i` (`i < L`) only receives
contributions from block `b` and, when `b > 0`, block `b − 1`. -/
theorem direct_conv_block_split (h x : ℕ → ℝ) (M L : ℕ) (hML : M - 1 ≤ L)
    (b : ℕ) {i : ℕ} (hi : i < L) :
    direct_conv h M x (b * L + i)
      = block_conv h M L (signal_block x L b) i
        + (if b = 0 then 0
            else block_conv h M L (signal_block x L (b - 1)) (L + i)) := by
  by_cases hb : b = 0
  · subst hb
    rw [if_pos rfl, add_zero]
    unfold direct_conv block_conv signal_block
    simp only [Nat.zero_mul, Nat.zero_add]
    apply Finset.sum_congr rfl
    intro j hj
    rw [Finset.mem_range] at hj
    by_cases h1 : j ≤ i
    · rw [if_pos h1, if_pos ⟨h1, by omega⟩]
    · rw [if_neg h1, if_neg (by tauto)]
  · rw [if_neg hb]
    unfold direct_conv block_conv signal_block
    rw [← Finset.sum_add_distrib]
    apply Finset.sum_congr rfl
    intro j hj
    rw [Finset.mem_range] at hj
    have hb1 : 1 ≤ b := Nat.one_le_iff_ne_zero.mpr hb
    have hexp : (b - 1) * L + L = b * L := by
      cases b with
      | zero => omega
      | succ b => simp [Nat.succ_sub_one, Nat.succ_mul]
    have hd : j ≤ b * L + i := by omega
    rw [if_pos hd]
    by_cases h1 : j ≤ i
    · have c1 : j ≤ i ∧ i - j < L := ⟨h1, by omega⟩
      have c2 : ¬ (j ≤ L + i ∧ L + i - j < L) := by omega
      rw [if_pos c1, if_neg c2, mul_zero, add_zero]
      have harg : b * L + i - j = b * L + (i - j) := by omega
      rw [harg]
    · have c1 : ¬ (j ≤ i ∧ i - j < L) := by tauto
      have c2 : j ≤ L + i ∧ L + i - j < L := ⟨by omega, by omega⟩
      rw [if_neg c1, if_pos c2, mul_zero, zero_add]
      have harg : b * L + i - j = (b - 1) * L + (L + i - j) := by omega
      rw [harg]

/-- A block's linear convolution vanishes at index `L + i` once
`M − 1 ≤ i`: the carry of a block never extends past `L + M − 1` samples. -/
theorem block_conv_carry_zero (h : ℕ → ℝ) (M L : ℕ) (xb : ℕ → ℝ) {i : ℕ}
    (hiM : M - 1 ≤ i) (hM : 1 ≤ M) :
    block_conv h M L xb (L + i) = 0 := by
  unfold block_conv
  apply Finset.sum_eq_zero
  intro j hj
  rw [Finset.mem_range] at hj
  rw [if_neg (by omega : ¬ (j ≤ L + i ∧ L + i - j < L)), mul_zero]

/-- C1 (amended with the block-size condition `M − 1 ≤ L`): for every FIR
filter `h` of length `M ≥ 1` and every block size `L` with `L ≥ 1` and
`L ≥ M − 1`, after `ola_init`, feeding the signal as consecutive in-order
`L`-sample blocks makes every `ola_process` call produce `L` output samples
whose concatenation equals the direct time-domain linear convolution of the
signal with `h` at every sample index, under exact real arithmetic. -/
theorem ola_reproduces_direct_convolution (h x : ℕ → ℝ) (M L : ℕ)
    (hM : 1 ≤ M) (hL : 1 ≤ L) (hML : M - 1 ≤ L) (b : ℕ) {i : ℕ} (hi : i < L) :
    ola_out (ola_init h M L) x L b i = direct_conv h M x (b * L + i) := by
  rw [ola_out_spec h x M L hM b hi, direct_conv_block_split h x M L hML b hi]
  congr 1
  by_cases hb : b = 0
  · simp [hb]
  · rw [if_neg hb]
    by_cases hi2 : i < next_power_of_2 (L + M - 1) - L
    · rw [if_pos ⟨hb, hi2⟩]
    · rw [if_neg (by tauto)]
      have hN0 : L + M - 1 ≤ next_power_of_2 (L + M - 1) := le_next_power_of_2 _
      exact (block_conv_carry_zero h M L _ (by omega) hM).symm

/-- Witness for C1's amended theorem at `M = 1`, `L = 1`, `b = 0`, `i = 0`. -/
theorem ola_reproduces_direct_convolution_witness :
    ola_out (ola_init (fun _ => (1 : ℝ)) 1 1) (fun _ => (0 : ℝ)) 1 0 0
      = direct_conv (fun _ => (1 : ℝ)) 1 (fun _ => (0 : ℝ)) (0 * 1 + 0) :=
  ola_reproduces_direct_convolution (fun _ => (1 : ℝ)) (fun _ => (0 : ℝ)) 1 1
    (by decide) (by decide) (by decide) 0 (by decide)

/-- C1 as stated is false at filter length `M = 3`, block size `L = 1`,
filter `h = [0,0,1]` (a two-sample delay) and signal `x = [1,0,0,…]`: the
third call's output sample (stream index 2) is `0`, while direct convolution
gives `1` — `ola_process` overwrites tail cells beyond index `L` without
ever consuming them, losing carries whenever `L < M − 1`. -/
theorem ola_small_block_mismatch :
    ola_out (ola_init (fun j => if j = 2 then (1 : ℝ) else 0) 3 1)
        (fun t => if t = 0 then (1 : ℝ) else 0) 1 2 0
      ≠ direct_conv (fun j => if j = 2 then (1 : ℝ) else 0) 3
          (fun t => if t = 0 then (1 : ℝ) else 0) 2 := by
  have hnpt : next_power_of_2 (1 + 3 - 1) = 4 := by
    norm_num [next_power_of_2]
    rw [npt_go, npt_go, npt_go]
    norm_num
  rw [ola_out_spec (fun j => if j = 2 then (1 : ℝ) else 0)
    (fun t => if t = 0 then (1 : ℝ) else 0) 3 1 (by norm_num) 2
    (by norm_num), hnpt]
  norm_num [block_conv, signal_block, direct_conv, Finset.sum_range_succ]

/-! ## Overlap-save streaming convolution (`streaming.c`) -/

/-- Numeric state of the overlap-save engine (`OlsState` in `streaming.h`).
`input_buf` is the rolling `fft_size`-sample segment; as for `OlaState`,
the fixed-size C buffers are modelled as total functions that are zero
wherever the code never writes. -/
structure OlsState where
  block_size : ℕ
  fft_size : ℕ
  filter_len : ℕ
  H : ℕ → ℂ
  Xbuf : ℕ → ℂ
  input_buf : ℕ → ℝ

/-- `ols_init` from `streaming.c` (numeric content): same `fft_size` and
cached filter transform as `ola_init`; the input segment starts
zero-filled (`calloc`). -/
def ols_init (h : ℕ → ℝ) (filter_len block_size : ℕ) : OlsState :=
  let N := next_power_of_2 (block_size + filter_len - 1)
  { block_size := block_size
    fft_size := N
    filter_len := filter_len
    H := dft N (fun i => if i < filter_len then (h i : ℂ) else 0)
    Xbuf := fun _ => 0
    input_buf := fun _ => 0 }

/-- `ols_process` from `streaming.c`: keep the last `M−1` samples
(`memmove` from offset `L`), append the new `L` samples at offset `M−1`,
zero-pad up to `fft_size`, transform, multiply by the cached `H`,
inverse-transform, and emit samples `M−1 .. M−2+L` of the result — the
first `M−1` samples are discarded. -/
def ols_process (s : OlsState) (inp : ℕ → ℝ) : OlsState × (ℕ → ℝ) :=
  let N := s.fft_size
  let M := s.filter_len
  let L := s.block_size
  let buf1 : ℕ → ℝ := fun j => if j < M - 1 then s.input_buf (L + j) else s.input_buf j
  let buf2 : ℕ → ℝ := fun j =>
    if M - 1 ≤ j ∧ j < M - 1 + L then inp (j - (M - 1)) else buf1 j
  let buf3 : ℕ → ℝ := fun j => if M - 1 + L ≤ j ∧ j < N then 0 else buf2 j
  let y : ℕ → ℂ := idft N (fun k => dft N (fun i => ((buf3 i : ℝ) : ℂ)) k * s.H k)
  let out : ℕ → ℝ := fun i => (y (M - 1 + i)).re
  ({ s with Xbuf := y, input_buf := buf3 }, out)

/-- The overlap-save state after the first `b` blocks of `x` have been fed. -/
def ols_run (s0 : OlsState) (x : ℕ → ℝ) (L : ℕ) : ℕ → OlsState
  | 0 => s0
  | b + 1 => (ols_process (ols_run s0 x L b) (signal_block x L b)).1

/-- The output block produced by the `b`-th `ols_process` call (0-indexed). -/
def ols_out (s0 : OlsState) (x : ℕ → ℝ) (L b : ℕ) : ℕ → ℝ :=
  (ols_process (ols_run s0 x L b) (signal_block x L b)).2

theorem ols_init_fields (h : ℕ → ℝ) (filter_len block_size : ℕ) :
    (ols_init h filter_len block_size).block_size = block_size ∧
      (ols_init h filter_len block_size).fft_size
        = next_power_of_2 (block_size + filter_len - 1) ∧
      (ols_init h filter_len block_size).filter_len = filter_len ∧
      (ols_init h filter_len block_size).H
        = dft (next_power_of_2 (block_size + filter_len - 1))
            (fun i => if i < filter_len then (h i : ℂ) else 0) :=
  ⟨rfl, rfl, rfl, rfl⟩

theorem ols_process_config (s : OlsState) (inp : ℕ → ℝ) :
    ((ols_process s inp).1.block_size = s.block_size ∧
      (ols_process s inp).1.fft_size = s.fft_size ∧
      (ols_process s inp).1.filter_len = s.filter_len) ∧
      (ols_process s inp).1.H = s.H := by
  refine ⟨⟨rfl, rfl, rfl⟩, rfl⟩

theorem ols_run_config (s0 : OlsState) (x : ℕ → ℝ) (L b : ℕ) :
    (ols_run s0 x L b).block_size = s0.block_size ∧
      (ols_run s0 x L b).fft_size = s0.fft_size ∧
      (ols_run s0 x L b).filter_len = s0.filter_len ∧
      (ols_run s0 x L b).H = s0.H := by
  induction b with
  | zero => exact ⟨rfl, rfl, rfl, rfl⟩
  | succ b ih =>
    obtain ⟨h1, h2, h3, h4⟩ := ih
    exact ⟨h1, h2, h3, by rw [ols_run]; exact h4⟩

theorem ols_process_buf (s : OlsState) (inp : ℕ → ℝ) (j : ℕ) :
    (ols_process s inp).1.input_buf j
      = if s.filter_len - 1 + s.block_size ≤ j ∧ j < s.fft_size then 0
        else if s.filter_len - 1 ≤ j ∧ j < s.filter_len - 1 + s.block_size then
          inp (j - (s.filter_len - 1))
        else if j < s.filter_len - 1 then s.input_buf (s.block_size + j)
        else s.input_buf j := rfl

theorem ols_process_output (s : OlsState) (inp : ℕ → ℝ) (i : ℕ) :
    (ols_process s inp).2 i
      = ((ols_process s inp).1.Xbuf (s.filter_len - 1 + i)).re := rfl

theorem ols_process_Xbuf (s : OlsState) (inp : ℕ → ℝ) :
    (ols_process s inp).1.Xbuf
      = idft s.fft_size (fun k =>
          dft s.fft_size
            (fun j => (((ols_process s inp).1.input_buf j : ℝ) : ℂ)) k *
          s.H k) := rfl

/-- Rolling-buffer invariant of the overlap-save loop: after `b` calls the
segment holds the last `M−1` samples seen so far followed by the most recent
block, i.e. cell `j < M−1+L` holds stream sample `b·L + j − (M−1) − L`
(zero while that index is still before the stream start), and every cell
from `M−1+L` on is zero. -/
theorem ols_buf_inv (h x : ℕ → ℝ) (M L : ℕ) (hM : 1 ≤ M) (hL : 1 ≤ L) (b : ℕ) :
    ∀ j, (ols_run (ols_init h M L) x L b).input_buf j
      = if j < M - 1 + L ∧ M - 1 + L ≤ b * L + j then
          x (b * L + j - (M - 1) - L)
        else 0 := by
  have hN0 : L + M - 1 ≤ next_power_of_2 (L + M - 1) := le_next_power_of_2 _
  induction b with
  | zero =>
    intro j
    have : ¬ (j < M - 1 + L ∧ M - 1 + L ≤ 0 * L + j) := by omega
    simp only [this, if_false]
    rfl
  | succ b ih =>
    intro j
    obtain ⟨hbs, hfs, hfl, _⟩ := ols_run_config (ols_init h M L) x L b
    obtain ⟨hibs, hifs, hifl, _⟩ := ols_init_fields h M L
    have hrun : ols_run (ols_init h M L) x L (b + 1)
        = (ols_process (ols_run (ols_init h M L) x L b) (signal_block x L b)).1 :=
      rfl
    rw [hrun, ols_process_buf, hbs, hfs, hfl, hibs, hifs, hifl]
    rw [Nat.succ_mul]
    by_cases c1 : M - 1 + L ≤ j ∧ j < next_power_of_2 (L + M - 1)
    · rw [if_pos c1, if_neg (by omega)]
    · rw [if_neg c1]
      by_cases c2 : M - 1 ≤ j ∧ j < M - 1 + L
      · rw [if_pos c2, if_pos (by omega)]
        unfold signal_block
        congr 1
        omega
      · rw [if_neg c2]
        by_cases c3 : j < M - 1
        · rw [if_pos c3, ih (L + j)]
          by_cases c4 : L + j < M - 1 + L ∧ M - 1 + L ≤ b * L + (L + j)
          · rw [if_pos c4, if_pos (by omega)]
            congr 1
            omega
          · rw [if_neg c4, if_neg (by omega)]
        · rw [if_neg c3, ih j]
          rw [if_neg (by omega), if_neg (by omega)]

/-- Variant of `conv_block_spec` for an arbitrary real buffer supported below
`A`: the transform–multiply–inverse pipeline yields the real linear
convolution of the buffer with the filter wherever the wrap is out of
reach. -/
theorem conv_real_spec (h : ℕ → ℝ) (M A N : ℕ) (hN : 0 < N)
    (u : ℕ → ℝ) (hu : ∀ j, A ≤ j → u j = 0) {t : ℕ} (ht : t < N)
    (hwrap : A + M ≤ t + N + 1) :
    idft N (fun k => dft N (fun i => ((u i : ℝ) : ℂ)) k *
        dft N (fun i => if i < M then (h i : ℂ) else 0) k) t
      = ((∑ j ∈ range M, h j * (if j ≤ t then u (t - j) else 0) : ℝ) : ℂ) := by
  rw [idft_dft_mul_dft hN _ _
    (fun j hj => by simp [hu j hj])
    (fun l hl => by simp [Nat.not_lt.mpr hl]) ht hwrap]
  calc
    ∑ j ∈ range (t + 1),
        ((u j : ℝ) : ℂ) * (if t - j < M then (h (t - j) : ℂ) else 0)
      = ∑ j ∈ range (t + 1),
          (if j < M then (h j : ℂ) else 0) * ((u (t - j) : ℝ) : ℂ) :=
        conv_sum_comm (fun j => ((u j : ℝ) : ℂ))
          (fun l => if l < M then (h l : ℂ) else 0) t
    _ = ((∑ j ∈ range (t + 1),
          (if j < M then h j else 0) * u (t - j) : ℝ) : ℂ) := by
        push_cast [apply_ite (fun r : ℝ => (r : ℂ))]
        rfl
    _ = ((∑ j ∈ range M, h j * (if j ≤ t then u (t - j) else 0) : ℝ) : ℂ) :=
        congrArg (fun r : ℝ => (r : ℂ))
          (sum_filter_shape h M t (fun j => u (t - j)))

/-- What the `b`-th overlap-save call outputs at position `i < L`: the direct
time-domain convolution of the whole signal at stream index `b·L + i` —
including the very first call, whose history is the `calloc`ed zero fill. -/
theorem ols_out_spec (h x : ℕ → ℝ) (M L : ℕ) (hM : 1 ≤ M) (hL : 1 ≤ L)
    (b : ℕ) {i : ℕ} (hi : i < L) :
    ols_out (ols_init h M L) x L b i = direct_conv h M x (b * L + i) := by
  have hN0 : L + M - 1 ≤ next_power_of_2 (L + M - 1) := le_next_power_of_2 _
  have hN0pos : 0 < next_power_of_2 (L + M - 1) := next_power_of_2_pos _
  obtain ⟨hbs, hfs, hfl, hH⟩ := ols_run_config (ols_init h M L) x L b
  obtain ⟨hibs, hifs, hifl, hiH⟩ := ols_init_fields h M L
  have hsucc : (ols_process (ols_run (ols_init h M L) x L b)
      (signal_block x L b)).1 = ols_run (ols_init h M L) x L (b + 1) := rfl
  unfold ols_out
  rw [ols_process_output, ols_process_Xbuf, hsucc, hfs, hfl, hH, hifs, hifl,
    hiH]
  have hsupp : ∀ j, M - 1 + L ≤ j →
      (ols_run (ols_init h M L) x L (b + 1)).input_buf j = 0 := by
    intro j hj
    rw [ols_buf_inv h x M L hM hL (b + 1) j, if_neg (by omega)]
  rw [conv_real_spec h M (M - 1 + L) (next_power_of_2 (L + M - 1)) hN0pos
    _ hsupp (by omega) (by omega), Complex.ofReal_re]
  unfold direct_conv
  apply Finset.sum_congr rfl
  intro j hj
  rw [Finset.mem_range] at hj
  have e1 : (ols_init h M L).block_size = L := rfl
  have e2 : (ols_init h M L).filter_len = M := rfl
  have e3 : (ols_init h M L).fft_size = next_power_of_2 (L + M - 1) := rfl
  rw [if_pos (by omega : j ≤ M - 1 + i),
    ols_buf_inv h x M L hM hL (b + 1) (M - 1 + i - j), Nat.succ_mul]
  by_cases hjb : j ≤ b * L + i
  · rw [if_pos (by omega), if_pos hjb]
    have harg : b * L + L + (M - 1 + i - j) - (M - 1) - L = b * L + i - j := by
      omega
    rw [harg]
  · rw [if_neg (by omega), if_neg hjb]

/-- C2: after `ols_init(s,h,M,L)`, feeding the signal as consecutive
in-order `L`-sample blocks makes `ols_process` reproduce direct time-domain
convolution (hence OverlapAdd's reference output) at every stream index
`b·L + i ≥ L`; moreover every call returns exactly samples
`M−1 .. M−2+L` of the inverse-transform result held in the scratch buffer,
never the first `M−1`. -/
theorem ols_matches_direct_convolution (h x : ℕ → ℝ) (M L : ℕ)
    (hM : 1 ≤ M) (hL : 1 ≤ L) (b : ℕ) {i : ℕ} (hi : i < L)
    (_hidx : L ≤ b * L + i) :
    ols_out (ols_init h M L) x L b i = direct_conv h M x (b * L + i)
      ∧ ∀ (s : OlsState) (inp : ℕ → ℝ) (i2 : ℕ),
          (ols_process s inp).2 i2
            = ((ols_process s inp).1.Xbuf (s.filter_len - 1 + i2)).re :=
  ⟨ols_out_spec h x M L hM hL b hi, fun _ _ _ => rfl⟩

/-- Witness for C2 at `M = 1`, `L = 1`, `b = 1`, `i = 0` (stream index 1 ≥ L). -/
theorem ols_matches_direct_convolution_witness :
    ols_out (ols_init (fun _ => (1 : ℝ)) 1 1) (fun _ => (0 : ℝ)) 1 1 0
        = direct_conv (fun _ => (1 : ℝ)) 1 (fun _ => (0 : ℝ)) (1 * 1 + 0)
      ∧ ∀ (s : OlsState) (inp : ℕ → ℝ) (i2 : ℕ),
          (ols_process s inp).2 i2
            = ((ols_process s inp).1.Xbuf (s.filter_len - 1 + i2)).re :=
  ols_matches_direct_convolution (fun _ => (1 : ℝ)) (fun _ => (0 : ℝ)) 1 1
    (by decide) (by decide) 1 (by decide) (by decide)

/-- C6 is refuted: on the very first call after `ols_init` the initial
`M−1` output samples DO reproduce direct time-domain convolution, because
`calloc` zero-fills the history, which is exactly direct convolution's
assumption about pre-signal samples.  Concretely, at `M = 3`, `L = 2`,
`h = [1,1,1]`, `x = [1,1,…]`, both samples of the first output block (the
initial `M − 1 = 2` samples of the stream) equal direct convolution. -/
theorem ols_first_call_equals_direct :
    ols_out (ols_init (fun _ => (1 : ℝ)) 3 2) (fun _ => (1 : ℝ)) 2 0 0
        = direct_conv (fun _ => (1 : ℝ)) 3 (fun _ => (1 : ℝ)) (0 * 2 + 0)
      ∧ ols_out (ols_init (fun _ => (1 : ℝ)) 3 2) (fun _ => (1 : ℝ)) 2 0 1
        = direct_conv (fun _ => (1 : ℝ)) 3 (fun _ => (1 : ℝ)) (0 * 2 + 1) :=
  ⟨ols_out_spec (fun _ => (1 : ℝ)) (fun _ => (1 : ℝ)) 3 2 (by decide)
      (by decide) 0 (by decide : (0 : ℕ) < 2),
    ols_out_spec (fun _ => (1 : ℝ)) (fun _ => (1 : ℝ)) 3 2 (by decide)
      (by decide) 0 (by decide : (1 : ℕ) < 2)⟩

/-- C6 (amended): the initial `M−1` output samples of the very first
`ols_process` call are produced against the zero-filled history installed by
`ols_init`, and therefore equal direct time-domain convolution of the signal
with `h` (which also treats pre-signal samples as zero); they are not
garbage and need no exclusion. -/
theorem ols_first_call_warmup (h x : ℕ → ℝ) (M L : ℕ)
    (hM : 1 ≤ M) (hL : 1 ≤ L) {i : ℕ} (hi : i < L) :
    ols_out (ols_init h M L) x L 0 i = direct_conv h M x i := by
  have hout := ols_out_spec h x M L hM hL 0 hi
  rwa [Nat.zero_mul, Nat.zero_add] at hout

/-- Witness for C6's amended theorem at `M = 2`, `L = 1`, `i = 0`. -/
theorem ols_first_call_warmup_witness :
    ols_out (ols_init (fun _ => (1 : ℝ)) 2 1) (fun _ => (1 : ℝ)) 1 0 0
      = direct_conv (fun _ => (1 : ℝ)) 2 (fun _ => (1 : ℝ)) 0 :=
  ols_first_call_warmup (fun _ => (1 : ℝ)) (fun _ => (1 : ℝ)) 2 1
    (by decide) (by decide) (by decide)

/-- C5: for every complex buffer whose length `N` is an exact power of two,
`inverse(forward(x)) = x` at every in-range index, exactly in real
arithmetic — the forward transform applies no normalisation and the inverse
divides every output by `N` (see the definitions of `dft` and `idft`,
modelled from the spec since `fft.c` is not among the provided sources). -/
theorem transform_roundtrip (N : ℕ) (x : ℕ → ℂ)
    (hpow : ∃ m : ℕ, N = 2 ^ m) {i : ℕ} (hi : i < N) :
    idft N (dft N x) i = x i := by
  obtain ⟨m, rfl⟩ := hpow
  exact idft_dft _ (by positivity) x hi

/-- Witness for C5 at `N = 2 = 2^1`, `x = id`, `i = 0`. -/
theorem transform_roundtrip_witness :
    idft 2 (dft 2 (fun j => (j : ℂ))) 0 = ((0 : ℕ) : ℂ) :=
  transform_roundtrip 2 (fun j => (j : ℂ)) ⟨1, rfl⟩ (by decide)

/-! ## Goertzel single-bin transform (`advanced_fft.c`) -/

/-- One pass of the Goertzel inner loop from `advanced_fft.c`:
`s0 = x[i] + coeff·s1 − s2; s2 = s1; s1 = s0`.  The pair is `(s1, s2)`. -/
def goertzel_step (coeff : ℝ) (p : ℝ × ℝ) (xi : ℝ) : ℝ × ℝ :=
  (xi + coeff * p.1 - p.2, p.1)

/-- The Goertzel state `(s1, s2)` after consuming the first `t` samples. -/
def goertzel_iter (x : ℕ → ℝ) (coeff : ℝ) : ℕ → ℝ × ℝ
  | 0 => (0, 0)
  | t + 1 => goertzel_step coeff (goertzel_iter x coeff t) (x t)

/-- `goertzel` from `advanced_fft.c`: run the recurrence with
`coeff = 2·cos(2πk/n)` over the `n` samples, then combine
`re = s1·cos ω − s2`, `im = s1·sin ω`. -/
def goertzel (x : ℕ → ℝ) (n k : ℕ) : ℂ :=
  ⟨(goertzel_iter x (2 * Real.cos (2 * Real.pi * k / n)) n).1 *
      Real.cos (2 * Real.pi * k / n)
      - (goertzel_iter x (2 * Real.cos (2 * Real.pi * k / n)) n).2,
    (goertzel_iter x (2 * Real.cos (2 * Real.pi * k / n)) n).1 *
      Real.sin (2 * Real.pi * k / n)⟩

/-- `goertzel_magnitude_sq` from `advanced_fft.c`: the optimised
`s1² + s2² − coeff·s1·s2`, skipping the final trigonometric combine. -/
def goertzel_magnitude_sq (x : ℕ → ℝ) (n k : ℕ) : ℝ :=
  (goertzel_iter x (2 * Real.cos (2 * Real.pi * k / n)) n).1 *
      (goertzel_iter x (2 * Real.cos (2 * Real.pi * k / n)) n).1
    + (goertzel_iter x (2 * Real.cos (2 * Real.pi * k / n)) n).2 *
      (goertzel_iter x (2 * Real.cos (2 * Real.pi * k / n)) n).2
    - 2 * Real.cos (2 * Real.pi * k / n) *
      (goertzel_iter x (2 * Real.cos (2 * Real.pi * k / n)) n).1 *
      (goertzel_iter x (2 * Real.cos (2 * Real.pi * k / n)) n).2

/-- Closed form of the Goertzel recurrence: after `t` samples,
`s1·e^{jω} − s2 = Σ_{i<t} x[i]·e^{jω(t−i)}`. -/
theorem goertzel_iter_closed (x : ℕ → ℝ) (ω : ℝ) (t : ℕ) :
    ((goertzel_iter x (2 * Real.cos ω) t).1 : ℂ) *
        Complex.exp ((ω : ℂ) * Complex.I)
        - ((goertzel_iter x (2 * Real.cos ω) t).2 : ℂ)
      = ∑ i ∈ range t, (x i : ℂ) *
          Complex.exp ((ω : ℂ) * Complex.I) ^ (t - i) := by
  induction t with
  | zero => simp [goertzel_iter]
  | succ t ih =>
    have hcos : 2 * Complex.cos (ω : ℂ) * Complex.exp ((ω : ℂ) * Complex.I)
        = Complex.exp ((ω : ℂ) * Complex.I) ^ 2 + 1 := by
      rw [Complex.exp_mul_I]
      linear_combination Complex.sin_sq_add_cos_sq (ω : ℂ)
        - Complex.sin (ω : ℂ) ^ 2 * Complex.I_sq
    have h1 : (goertzel_iter x (2 * Real.cos ω) (t + 1)).1
        = x t + 2 * Real.cos ω * (goertzel_iter x (2 * Real.cos ω) t).1
          - (goertzel_iter x (2 * Real.cos ω) t).2 := rfl
    have h2 : (goertzel_iter x (2 * Real.cos ω) (t + 1)).2
        = (goertzel_iter x (2 * Real.cos ω) t).1 := rfl
    rw [h1, h2, Finset.sum_range_succ]
    have hsum : ∑ i ∈ range t, (x i : ℂ) *
          Complex.exp ((ω : ℂ) * Complex.I) ^ (t + 1 - i)
        = Complex.exp ((ω : ℂ) * Complex.I) *
            ∑ i ∈ range t, (x i : ℂ) *
              Complex.exp ((ω : ℂ) * Complex.I) ^ (t - i) := by
      rw [Finset.mul_sum]
      apply Finset.sum_congr rfl
      intro i hi
      rw [Finset.mem_range] at hi
      rw [(by omega : t + 1 - i = (t - i) + 1), pow_succ]
      ring
    rw [hsum, (by omega : t + 1 - t = 1), pow_one]
    push_cast
    linear_combination Complex.exp ((ω : ℂ) * Complex.I) * ih +
      ((goertzel_iter x (2 * Real.cos ω) t).1 : ℂ) * hcos

/-- `goertzel` as a rotated partial transform sum. -/
theorem goertzel_closed (x : ℕ → ℝ) (n k : ℕ) :
    goertzel x n k
      = ∑ i ∈ range n, (x i : ℂ) *
          Complex.exp (((2 * Real.pi * k / n : ℝ) : ℂ) * Complex.I) ^ (n - i) := by
  rw [← goertzel_iter_closed x (2 * Real.pi * k / n) n]
  unfold goertzel
  rw [Complex.exp_mul_I, ← Complex.ofReal_cos, ← Complex.ofReal_sin,
    Complex.mk_eq_add_mul_I]
  push_cast
  ring

/-- C3: for every real signal of length `n ≥ 1` and every integer bin
`0 ≤ k < n`, `goertzel(x,n,k)` equals the Transform's bin `k`,
`X[k] = Σ_i x[i]·e^{-j2πki/n}`, exactly in real arithmetic. -/
theorem goertzel_eq_transform_bin (x : ℕ → ℝ) (n k : ℕ) (hn : 1 ≤ n)
    (_hk : k < n) :
    goertzel x n k = dft n (fun i => ((x i : ℝ) : ℂ)) k := by
  rw [goertzel_closed]
  unfold dft
  apply Finset.sum_congr rfl
  intro i hi
  rw [Finset.mem_range] at hi
  congr 1
  rw [← Complex.exp_nat_mul]
  unfold twiddle
  rw [Complex.exp_eq_exp_iff_exists_int]
  refine ⟨k, ?_⟩
  have hn' : ((n : ℂ)) ≠ 0 := by
    exact_mod_cast (by omega : n ≠ 0)
  have hni : ((n - i : ℕ) : ℂ) = (n : ℂ) - (i : ℂ) := by
    push_cast [Nat.cast_sub hi.le]
    ring
  rw [hni]
  push_cast
  field_simp
  ring

/-- Witness for C3 at `n = 1`, `k = 0`, `x = [1]`. -/
theorem goertzel_eq_transform_bin_witness :
    goertzel (fun _ => (1 : ℝ)) 1 0
      = dft 1 (fun i => (((fun _ => (1 : ℝ)) i : ℝ) : ℂ)) 0 :=
  goertzel_eq_transform_bin (fun _ => (1 : ℝ)) 1 0 (by decide) (by decide)

/-- C7: `goertzel_magnitude_sq` equals the squared magnitude of `goertzel`,
exactly in real arithmetic: with `s1`, `s2` the final recurrence state and
`coeff = 2·cos(2πk/n)`, `s1² + s2² − coeff·s1·s2 = (s1·cos−s2)² + (s1·sin)²`. -/
theorem goertzel_magnitude_sq_correct (x : ℕ → ℝ) (n k : ℕ) (_hn : 1 ≤ n) :
    goertzel_magnitude_sq x n k = Complex.normSq (goertzel x n k) := by
  unfold goertzel goertzel_magnitude_sq
  rw [Complex.normSq_mk]
  have hpyth := Real.sin_sq_add_cos_sq (2 * Real.pi * k / n)
  linear_combination
    (-((goertzel_iter (x := x) (2 * Real.cos (2 * Real.pi * k / n)) n).1 *
      (goertzel_iter (x := x) (2 * Real.cos (2 * Real.pi * k / n)) n).1)) * hpyth

/-! ## Sliding DFT (`advanced_fft.c`) -/

/-- State of the sliding single-bin tracker (`SlidingDFT` in
`advanced_fft.h`): window size, tracked bin, per-sample rotation
coefficient, running bin value, circular sample buffer and write cursor. -/
structure SlidingDFT where
  N : ℕ
  k : ℕ
  coeff : ℂ
  bin : ℂ
  buffer : ℕ → ℝ
  pos : ℕ

/-- `sliding_dft_init` from `advanced_fft.c` (numeric content):
`coeff = (cos ω, sin ω)` with `ω = 2πk/N`, zero bin, zero-filled circular
buffer (`calloc`), cursor at `0`. -/
def sliding_dft_init (N k : ℕ) : SlidingDFT :=
  { N := N
    k := k
    coeff := ⟨Real.cos (2 * Real.pi * k / N), Real.sin (2 * Real.pi * k / N)⟩
    bin := 0
    buffer := fun _ => 0
    pos := 0 }

/-- `sliding_dft_update` from `advanced_fft.c`: evict the oldest sample at
the cursor, store the new one, advance the cursor modulo `N`, and set
`bin := (bin + (new − old))·coeff`; the updated bin is what the call
returns. -/
def sliding_dft_update (s : SlidingDFT) (sample : ℝ) : SlidingDFT :=
  { s with
    buffer := fun j => if j = s.pos then sample else s.buffer j
    pos := (s.pos + 1) % s.N
    bin := (s.bin + (((sample - s.buffer s.pos : ℝ)) : ℂ)) * s.coeff }

/-- The tracker state after `t` samples of the stream `u` have been fed. -/
def sliding_run (s0 : SlidingDFT) (u : ℕ → ℝ) : ℕ → SlidingDFT
  | 0 => s0
  | t + 1 => sliding_dft_update (sliding_run s0 u t) (u t)

theorem sliding_run_pos (N k : ℕ) (u : ℕ → ℝ) (t : ℕ) :
    (sliding_run (sliding_dft_init N k) u t).pos = t % N ∧
      (sliding_run (sliding_dft_init N k) u t).N = N ∧
      (sliding_run (sliding_dft_init N k) u t).coeff
        = (⟨Real.cos (2 * Real.pi * k / N),
            Real.sin (2 * Real.pi * k / N)⟩ : ℂ) := by
  induction t with
  | zero => exact ⟨Nat.zero_mod N |>.symm ▸ rfl, rfl, rfl⟩
  | succ t ih =>
    obtain ⟨hpos, hN', hc⟩ := ih
    refine ⟨?_, hN', hc⟩
    show ((sliding_run (sliding_dft_init N k) u t).pos + 1)
        % (sliding_run (sliding_dft_init N k) u t).N = (t + 1) % N
    rw [hpos, hN', Nat.mod_add_mod]

/-- Circular-buffer invariant: after `t` samples, slot `(t+i) % N`
(for `i < N`) holds stream sample `t+i−N`, or the initial zero when that
sample predates the stream. -/
theorem sliding_run_buffer (N k : ℕ) (u : ℕ → ℝ) (hN : 1 ≤ N) (t : ℕ) :
    ∀ i, i < N →
      (sliding_run (sliding_dft_init N k) u t).buffer ((t + i) % N)
        = if N ≤ t + i then u (t + i - N) else 0 := by
  induction t with
  | zero =>
    intro i hi
    rw [if_neg (by omega)]
    rfl
  | succ t ih =>
    intro i hi
    obtain ⟨hpos, _, _⟩ := sliding_run_pos N k u t
    have hupd : ∀ j, (sliding_run (sliding_dft_init N k) u (t + 1)).buffer j
        = if j = (sliding_run (sliding_dft_init N k) u t).pos then u t
            else (sliding_run (sliding_dft_init N k) u t).buffer j :=
      fun _ => rfl
    rw [hupd ((t + 1 + i) % N), hpos]
    by_cases hiN : i = N - 1
    · subst hiN
      have hmod : (t + 1 + (N - 1)) % N = t % N := by
        rw [(by omega : t + 1 + (N - 1) = t + N), Nat.add_mod_right]
      rw [hmod, if_pos rfl, if_pos (by omega : N ≤ t + 1 + (N - 1))]
      congr 1
      omega
    · have hne : (t + 1 + i) % N ≠ t % N := by
        intro heq
        have hmeq : Nat.ModEq N t (t + 1 + i) := heq.symm
        rw [Nat.modEq_iff_dvd' (by omega)] at hmeq
        have := Nat.le_of_dvd (by omega) hmeq
        omega
      rw [if_neg hne, (by omega : t + 1 + i = t + (i + 1))]
      exact ih (i + 1) (by omega)

theorem sliding_coeff_eq_twiddle (N k : ℕ) :
    (⟨Real.cos (2 * Real.pi * k / N),
        Real.sin (2 * Real.pi * k / N)⟩ : ℂ) = twiddle N (k : ℤ) := by
  unfold twiddle
  rw [Complex.mk_eq_add_mul_I, Complex.ofReal_cos, Complex.ofReal_sin,
    ← Complex.exp_mul_I]
  congr 1
  push_cast
  ring

theorem twiddle_pow_N (N k : ℕ) (hN : 0 < N) : twiddle N (k : ℤ) ^ N = 1 := by
  rw [← twiddle_nat_mul N N (k : ℤ)]
  exact twiddle_eq_one_of_dvd hN ⟨(k : ℤ), rfl⟩

/-- Running-bin invariant: after `t` samples the bin is the rotated sum of
the trailing window `Σ_{s ∈ [t−N, t)} u[s]·c^{t−s}` with `c = e^{j2πk/N}`. -/
theorem sliding_run_bin (N k : ℕ) (u : ℕ → ℝ) (hN : 1 ≤ N) (t : ℕ) :
    (sliding_run (sliding_dft_init N k) u t).bin
      = ∑ s ∈ Finset.Ico (t - N) t, (u s : ℂ) * twiddle N (k : ℤ) ^ (t - s) := by
  induction t with
  | zero => simp [sliding_run, sliding_dft_init]
  | succ t ih =>
    obtain ⟨hpos, _, hc⟩ := sliding_run_pos N k u t
    have hbin : (sliding_run (sliding_dft_init N k) u (t + 1)).bin
        = ((sliding_run (sliding_dft_init N k) u t).bin +
            (((u t - (sliding_run (sliding_dft_init N k) u t).buffer
                (sliding_run (sliding_dft_init N k) u t).pos : ℝ)) : ℂ)) *
          (sliding_run (sliding_dft_init N k) u t).coeff := rfl
    have hold := sliding_run_buffer N k u hN t 0 (by omega)
    rw [Nat.add_zero] at hold
    rw [hbin, hpos, hold, hc, sliding_coeff_eq_twiddle, ih]
    by_cases ht : N ≤ t
    · have hsplit : ∑ s ∈ Finset.Ico (t - N) t,
            (u s : ℂ) * twiddle N (k : ℤ) ^ (t - s)
          = (u (t - N) : ℂ) * twiddle N (k : ℤ) ^ (t - (t - N))
            + ∑ s ∈ Finset.Ico (t - N + 1) t,
                (u s : ℂ) * twiddle N (k : ℤ) ^ (t - s) :=
        Finset.sum_eq_sum_Ico_succ_bot (by omega) _
      have hN1 : twiddle N (k : ℤ) ^ (t - (t - N)) = 1 := by
        rw [(by omega : t - (t - N) = N)]
        exact twiddle_pow_N N k (by omega)
      have htop : ∑ s ∈ Finset.Ico (t + 1 - N) (t + 1),
            (u s : ℂ) * twiddle N (k : ℤ) ^ (t + 1 - s)
          = ∑ s ∈ Finset.Ico (t + 1 - N) t,
              (u s : ℂ) * twiddle N (k : ℤ) ^ (t + 1 - s)
            + (u t : ℂ) * twiddle N (k : ℤ) ^ (t + 1 - t) :=
        Finset.sum_Ico_succ_top (by omega) _
      have hshift : ∑ s ∈ Finset.Ico (t + 1 - N) t,
            (u s : ℂ) * twiddle N (k : ℤ) ^ (t + 1 - s)
          = twiddle N (k : ℤ) *
              ∑ s ∈ Finset.Ico (t - N + 1) t,
                (u s : ℂ) * twiddle N (k : ℤ) ^ (t - s) := by
        rw [(by omega : t + 1 - N = t - N + 1), Finset.mul_sum]
        apply Finset.sum_congr rfl
        intro s hs
        rw [Finset.mem_Ico] at hs
        rw [(by omega : t + 1 - s = (t - s) + 1), pow_succ]
        ring
      rw [if_pos ht, hsplit, hN1, htop, hshift,
        (by omega : t + 1 - t = 1), pow_one]
      push_cast
      ring
    · have h0 : t - N = 0 := by omega
      have h0' : t + 1 - N = 0 := by omega
      have htop : ∑ s ∈ Finset.Ico 0 (t + 1),
            (u s : ℂ) * twiddle N (k : ℤ) ^ (t + 1 - s)
          = ∑ s ∈ Finset.Ico 0 t,
              (u s : ℂ) * twiddle N (k : ℤ) ^ (t + 1 - s)
            + (u t : ℂ) * twiddle N (k : ℤ) ^ (t + 1 - t) :=
        Finset.sum_Ico_succ_top (by omega) _
      have hshift : ∑ s ∈ Finset.Ico 0 t,
            (u s : ℂ) * twiddle N (k : ℤ) ^ (t + 1 - s)
          = twiddle N (k : ℤ) *
              ∑ s ∈ Finset.Ico 0 t, (u s : ℂ) * twiddle N (k : ℤ) ^ (t - s) := by
        rw [Finset.mul_sum]
        apply Finset.sum_congr rfl
        intro s hs
        rw [Finset.mem_Ico] at hs
        rw [(by omega : t + 1 - s = (t - s) + 1), pow_succ]
        ring
      rw [if_neg ht, h0, h0', htop, hshift, (by omega : t + 1 - t = 1), pow_one]
      push_cast
      ring

theorem twiddle_pow_sub (N k i : ℕ) (hN : 0 < N) (hi : i ≤ N) :
    twiddle N (k : ℤ) ^ (N - i) = twiddle N (-((k : ℤ) * i)) := by
  have hne : twiddle N ((i : ℤ) * k) ≠ 0 := Complex.exp_ne_zero _
  apply mul_right_cancel₀ hne
  rw [twiddle_nat_mul N i (k : ℤ), ← pow_add, (by omega : N - i + i = N),
    twiddle_pow_N N k hN, ← twiddle_nat_mul N i (k : ℤ), ← twiddle_add,
    (by ring : -((k : ℤ) * (i : ℕ)) + (i : ℤ) * k = 0), twiddle_zero]

/-- C4: once at least `N` samples have been fed, the running bin after every
update equals the unnormalized bin-`k` transform of exactly the last `N`
samples (`Σ_{i<N} u[t−N+i]·e^{-j2πki/N}`), and each update computes
`bin_new = (bin_old − oldest + newest)·e^{j2πk/N}` (the stored `coeff`). -/
theorem sliding_dft_window_invariant (u : ℕ → ℝ) (N k : ℕ) (hN : 1 ≤ N)
    (t : ℕ) (ht : N ≤ t) :
    (sliding_run (sliding_dft_init N k) u t).bin
        = dft N (fun i => ((u (t - N + i) : ℝ) : ℂ)) k
      ∧ ∀ (s : SlidingDFT) (sample : ℝ),
          (sliding_dft_update s sample).bin
            = (s.bin - ((s.buffer s.pos : ℝ) : ℂ) + ((sample : ℝ) : ℂ))
                * s.coeff := by
  constructor
  · rw [sliding_run_bin N k u hN t]
    unfold dft
    rw [Finset.sum_Ico_eq_sum_range, (by omega : t - (t - N) = N)]
    apply Finset.sum_congr rfl
    intro i hi
    rw [Finset.mem_range] at hi
    rw [(by omega : t - (t - N + i) = N - i),
      twiddle_pow_sub N k i (by omega) (by omega)]
  · intro s sample
    have hb : (sliding_dft_update s sample).bin
        = (s.bin + (((sample - s.buffer s.pos : ℝ)) : ℂ)) * s.coeff := rfl
    rw [hb]
    push_cast
    ring

/-- Witness for C4 at `N = 1`, `k = 0`, `t = 1`, constant stream `1`. -/
theorem sliding_dft_window_invariant_witness :
    (sliding_run (sliding_dft_init 1 0) (fun _ => (1 : ℝ)) 1).bin
        = dft 1 (fun i => (((fun _ => (1 : ℝ)) (1 - 1 + i) : ℝ) : ℂ)) 0
      ∧ ∀ (s : SlidingDFT) (sample : ℝ),
          (sliding_dft_update s sample).bin
            = (s.bin - ((s.buffer s.pos : ℝ) : ℂ) + ((sample : ℝ) : ℂ))
                * s.coeff :=
  sliding_dft_window_invariant (fun _ => (1 : ℝ)) 1 0 (by decide) 1 (by decide)

/-- C8: every `ola_process` and `ols_process` call leaves the state's
configuration fields (`block_size`, `filter_len`, `fft_size`) and the cached
filter transform `H` unchanged — only the working buffers (`Xbuf`, `tail`,
`padded` for overlap-add; `Xbuf`, `input_buf` for overlap-save) are
mutated. -/
theorem process_preserves_configuration (sa : OlaState) (ss : OlsState)
    (ina ins : ℕ → ℝ) :
    ((ola_process sa ina).1.block_size = sa.block_size
      ∧ (ola_process sa ina).1.filter_len = sa.filter_len
      ∧ (ola_process sa ina).1.fft_size = sa.fft_size
      ∧ (ola_process sa ina).1.H = sa.H)
    ∧ ((ols_process ss ins).1.block_size = ss.block_size
      ∧ (ols_process ss ins).1.filter_len = ss.filter_len
      ∧ (ols_process ss ins).1.fft_size = ss.fft_size
      ∧ (ols_process ss ins).1.H = ss.H) :=
  ⟨⟨rfl, rfl, rfl, rfl⟩, ⟨rfl, rfl, rfl, rfl⟩⟩

/-! ## Allocation-level models

The initialization failure paths and the release functions are about heap
pointers, not numerics, so they are embedded separately: each buffer field
is `some id` (a non-NULL pointer tagged with its allocation id) or `none`
(NULL).  An oracle `alloc : ℕ → Bool` decides whether the `i`-th `calloc`
of the call succeeds.  Each function also reports which allocation ids it
obtained and which it released (`free(NULL)` releases nothing). -/

/-- Pointer-level view of `OlaState`. -/
structure OlaMem where
  H : Option ℕ
  Xbuf : Option ℕ
  tail : Option ℕ
  padded : Option ℕ

/-- Pointer-level view of `OlsState`. -/
structure OlsMem where
  H : Option ℕ
  Xbuf : Option ℕ
  input_buf : Option ℕ

/-- Pointer-level view of `SlidingDFT` (only `buffer` is heap-allocated). -/
structure SlidingMem where
  buffer : Option ℕ

/-- Body of `ola_free` for a non-NULL state pointer: release every non-NULL
buffer and set all four pointers to NULL. -/
def ola_free_core (s : OlaMem) : OlaMem × List ℕ :=
  (⟨none, none, none, none⟩,
    s.H.toList ++ s.Xbuf.toList ++ s.tail.toList ++ s.padded.toList)

/-- `ola_free` from `streaming.c`: `if (s) { free + NULL each buffer }`. -/
def ola_free (s : Option OlaMem) : Option OlaMem × List ℕ :=
  match s with
  | none => (none, [])
  | some s => (some (ola_free_core s).1, (ola_free_core s).2)

/-- Body of `ols_free` for a non-NULL state pointer. -/
def ols_free_core (s : OlsMem) : OlsMem × List ℕ :=
  (⟨none, none, none⟩, s.H.toList ++ s.Xbuf.toList ++ s.input_buf.toList)

/-- `ols_free` from `streaming.c`: `if (s) { free + NULL each buffer }`. -/
def ols_free (s : Option OlsMem) : Option OlsMem × List ℕ :=
  match s with
  | none => (none, [])
  | some s => (some (ols_free_core s).1, (ols_free_core s).2)

/-- `sliding_dft_free` from `advanced_fft.c`:
`if (s && s->buffer) { free(s->buffer); s->buffer = NULL; }`. -/
def sliding_dft_free (s : Option SlidingMem) : Option SlidingMem × List ℕ :=
  match s with
  | none => (none, [])
  | some s => (some ⟨none⟩, s.buffer.toList)

/-- Allocation path of `ola_init` from `streaming.c`: `calloc` H (call 0);
on failure return −1 at once; otherwise `calloc` Xbuf, tail, padded
(calls 1–3), and if any failed, `ola_free(s)` and return −1; else return 0.
Result: (return value, state, ids allocated, ids released). -/
def ola_init_alloc (s : OlaMem) (alloc : ℕ → Bool) :
    Int × OlaMem × List ℕ × List ℕ :=
  let pH : Option ℕ := if alloc 0 then some 0 else none
  let s1 : OlaMem := { s with H := pH }
  match pH with
  | none => (-1, s1, [], [])
  | some _ =>
    let pX : Option ℕ := if alloc 1 then some 1 else none
    let pT : Option ℕ := if alloc 2 then some 2 else none
    let pP : Option ℕ := if alloc 3 then some 3 else none
    let s2 : OlaMem := { s1 with Xbuf := pX, tail := pT, padded := pP }
    let allocated := pH.toList ++ pX.toList ++ pT.toList ++ pP.toList
    if pX = none ∨ pT = none ∨ pP = none then
      (-1, (ola_free_core s2).1, allocated, (ola_free_core s2).2)
    else (0, s2, allocated, [])

/-- Allocation path of `ols_init` from `streaming.c`: `calloc` H (call 0);
on failure return −1; otherwise `calloc` Xbuf and input_buf (calls 1–2),
and if either failed, `ols_free(s)` and return −1; else return 0. -/
def ols_init_alloc (s : OlsMem) (alloc : ℕ → Bool) :
    Int × OlsMem × List ℕ × List ℕ :=
  let pH : Option ℕ := if alloc 0 then some 0 else none
  let s1 : OlsMem := { s with H := pH }
  match pH with
  | none => (-1, s1, [], [])
  | some _ =>
    let pX : Option ℕ := if alloc 1 then some 1 else none
    let pI : Option ℕ := if alloc 2 then some 2 else none
    let s2 : OlsMem := { s1 with Xbuf := pX, input_buf := pI }
    let allocated := pH.toList ++ pX.toList ++ pI.toList
    if pX = none ∨ pI = none then
      (-1, (ols_free_core s2).1, allocated, (ols_free_core s2).2)
    else (0, s2, allocated, [])

/-- Allocation path of `sliding_dft_init` from `advanced_fft.c`: one
`calloc` for the circular buffer (call 0); return −1 if it fails, 0
otherwise. -/
def sliding_dft_init_alloc (s : SlidingMem) (alloc : ℕ → Bool) :
    Int × SlidingMem × List ℕ × List ℕ :=
  let pB : Option ℕ := if alloc 0 then some 0 else none
  let s1 : SlidingMem := { s with buffer := pB }
  match pB with
  | none => (-1, s1, [], [])
  | some _ => (0, s1, pB.toList, [])

/-- C9: each initializer returns `0` exactly when all of its buffer
allocations succeed and `−1` (distinct from success) on any allocation
failure, and on failure `ola_init`/`ols_init` release every buffer the call
had already allocated before returning; `sliding_dft_init`'s only
allocation is the one that failed, so nothing is left allocated. -/
theorem init_allocation_contract (sa : OlaMem) (ss : OlsMem)
    (sd : SlidingMem) (alloc : ℕ → Bool) :
    ((ola_init_alloc sa alloc).1 = 0
        ↔ (alloc 0 = true ∧ alloc 1 = true ∧ alloc 2 = true ∧ alloc 3 = true))
    ∧ ((ola_init_alloc sa alloc).1 = 0 ∨ (ola_init_alloc sa alloc).1 = -1)
    ∧ ((ola_init_alloc sa alloc).1 = -1 →
        ∀ a ∈ (ola_init_alloc sa alloc).2.2.1,
          a ∈ (ola_init_alloc sa alloc).2.2.2)
    ∧ ((ols_init_alloc ss alloc).1 = 0
        ↔ (alloc 0 = true ∧ alloc 1 = true ∧ alloc 2 = true))
    ∧ ((ols_init_alloc ss alloc).1 = 0 ∨ (ols_init_alloc ss alloc).1 = -1)
    ∧ ((ols_init_alloc ss alloc).1 = -1 →
        ∀ a ∈ (ols_init_alloc ss alloc).2.2.1,
          a ∈ (ols_init_alloc ss alloc).2.2.2)
    ∧ ((sliding_dft_init_alloc sd alloc).1 = 0 ↔ alloc 0 = true)
    ∧ ((sliding_dft_init_alloc sd alloc).1 = 0
        ∨ (sliding_dft_init_alloc sd alloc).1 = -1)
    ∧ ((sliding_dft_init_alloc sd alloc).1 = -1 →
        (sliding_dft_init_alloc sd alloc).2.2.1 = []) := by
  cases h0 : alloc 0 <;> cases h1 : alloc 1 <;> cases h2 : alloc 2 <;>
    cases h3 : alloc 3 <;>
    simp [ola_init_alloc, ols_init_alloc, sliding_dft_init_alloc,
      ola_free_core, ols_free_core, h0, h1, h2, h3]

/-- Witness for C9: with the third `calloc` (the tail buffer) failing,
`ola_init` returns −1 and every allocation it made has been released. -/
theorem init_allocation_contract_witness :
    (ola_init_alloc ⟨none, none, none, none⟩ (fun i => !(i == 2))).1 = -1
    ∧ ∀ a ∈ (ola_init_alloc ⟨none, none, none, none⟩
          (fun i => !(i == 2))).2.2.1,
        a ∈ (ola_init_alloc ⟨none, none, none, none⟩
          (fun i => !(i == 2))).2.2.2 :=
  ⟨by decide,
    (init_allocation_contract ⟨none, none, none, none⟩ ⟨none, none, none⟩
      ⟨none⟩ (fun i => !(i == 2))).2.2.1 (by decide)⟩

/-- C10: the release functions set every pointer they free to NULL, so a
second release of the same state is a no-op that frees nothing, and
`sliding_dft_free` additionally accepts a NULL state pointer. -/
theorem free_idempotent_null_safe (sa : Option OlaMem) (ss : Option OlsMem)
    (sd : Option SlidingMem) :
    ola_free (ola_free sa).1 = ((ola_free sa).1, [])
    ∧ ols_free (ols_free ss).1 = ((ols_free ss).1, [])
    ∧ sliding_dft_free (sliding_dft_free sd).1 = ((sliding_dft_free sd).1, [])
    ∧ sliding_dft_free none = (none, []) := by
  refine ⟨?_, ?_, ?_, rfl⟩
  · cases sa <;> rfl
  · cases ss <;> rfl
  · cases sd <;> rfl

/-- Witness for C7 at `n = 1`, `k = 0`, `x = [1]`. -/
theorem goertzel_magnitude_sq_correct_witness :
    goertzel_magnitude_sq (fun _ => (1 : ℝ)) 1 0
      = Complex.normSq (goertzel (fun _ => (1 : ℝ)) 1 0) :=
  goertzel_magnitude_sq_correct (fun _ => (1 : ℝ)) 1 0 (by decide)

end DspSuite
